import Mathlib

/-!
Verification of the hash-chained integrity ledger of the
`security_associations` repository (`src/lib/blockchain.ts` content, classes
`SimpleBlockchain` and `Block`), as specified in `spec.md`.

The embedding is parametric in the digest function (`CryptoJS.SHA256 ∘
toString` in the source): every structural theorem is proved for an arbitrary
`digest : String → String`, and claims that need collision-freeness take
injectivity of `digest` as an explicit hypothesis, which models the practical
collision resistance of SHA-256.  The unbounded mining loop of
`Block.mineBlock` is modelled with explicit fuel: `none` means the search was
still running when the fuel ran out, `some` is the sealed block the source
returns.  Wall-clock times (`Date.now()`) are explicit `Nat` parameters, and
the opaque JSON-serialized payload (`JSON.stringify(this.data)`) is modelled
as the `String` stored in the `data` field.
-/

namespace SecurityAssociations

/-- One block of the chain, mirroring the fields of `class Block`
(`index`, `timestamp`, `data`, `previousHash`, `nonce`, `hash`). -/
structure Block where
  index : Nat
  timestamp : Nat
  data : String
  previousHash : String
  nonce : Nat
  hash : String
deriving DecidableEq

/-- The string fed to the digest by `Block.calculateHash`:
`this.index + this.previousHash + this.timestamp + JSON.stringify(this.data) + this.nonce`
(JavaScript string concatenation with number-to-string coercion). -/
def hashInput (b : Block) : String :=
  toString b.index ++ b.previousHash ++ toString b.timestamp ++ b.data ++ toString b.nonce

/-- `Block.calculateHash`: digest of the concatenated fields.  The stored
`hash` field is not part of the input. -/
def calculateHash (digest : String → String) (b : Block) : String :=
  digest (hashInput b)

/-- The `Block` constructor: stores the four arguments, sets `nonce = 0` and
computes `this.hash = this.calculateHash()`. -/
def Block.new (digest : String → String) (index timestamp : Nat)
    (data previousHash : String) : Block :=
  let draft : Block :=
    { index := index, timestamp := timestamp, data := data,
      previousHash := previousHash, nonce := 0, hash := "" }
  { draft with hash := calculateHash digest draft }

/-- The mining target `Array(difficulty + 1).join('0')`: a string of
`difficulty` zero characters. -/
def mineTarget (difficulty : Nat) : String :=
  String.mk (List.replicate difficulty '0')

/-- `Block.mineBlock(difficulty)`: while the first `difficulty` characters of
`this.hash` differ from the target, increment `this.nonce` and recompute
`this.hash`.  The `fuel` argument bounds the number of loop iterations; the
source's loop is unbounded, so `none` models a search still running. -/
def mineBlock (digest : String → String) (difficulty : Nat) :
    Nat → Block → Option Block
  | fuel, b =>
    if b.hash.take difficulty = mineTarget difficulty then
      some b
    else
      match fuel with
      | 0 => none
      | fuel' + 1 =>
        let b1 : Block := { b with nonce := b.nonce + 1 }
        mineBlock digest difficulty fuel' { b1 with hash := calculateHash digest b1 }

/-- `class SimpleBlockchain`: the chain array and the mining difficulty
(initialized to `2` in the source). -/
structure SimpleBlockchain where
  chain : List Block
  difficulty : Nat
deriving DecidableEq

/-- `createGenesisBlock()`: `new Block(0, Date.now(), 'Genesis Block', '0')`. -/
def createGenesisBlock (digest : String → String) (now : Nat) : Block :=
  Block.new digest 0 now "Genesis Block" "0"

/-- The `SimpleBlockchain` constructor: `this.chain = [this.createGenesisBlock()]`
with `this.difficulty = 2`. -/
def newBlockchain (digest : String → String) (now : Nat) : SimpleBlockchain :=
  { chain := [createGenesisBlock digest now], difficulty := 2 }

/-- Stand-in for the out-of-domain array access `this.chain[-1]` on an empty
chain (where the JavaScript source would crash); every chain the ledger
produces is nonempty, so this value is never reached from the ledger's
operations. -/
def phantomBlock : Block :=
  { index := 0, timestamp := 0, data := "", previousHash := "", nonce := 0, hash := "" }

/-- `getLatestBlock()`: `this.chain[this.chain.length - 1]`. -/
def getLatestBlock (bc : SimpleBlockchain) : Block :=
  bc.chain.getLastD phantomBlock

/-- `addBlock(newBlock)`: overwrite `newBlock.previousHash` with the tip's
hash, mine it at the ledger's difficulty, push it, and return its hash. -/
def addBlock (digest : String → String) (bc : SimpleBlockchain) (newBlock : Block)
    (fuel : Nat) : Option (SimpleBlockchain × String) :=
  let b1 : Block := { newBlock with previousHash := (getLatestBlock bc).hash }
  match mineBlock digest bc.difficulty fuel b1 with
  | none => none
  | some b2 => some ({ bc with chain := bc.chain ++ [b2] }, b2.hash)

/-- `createSABlock(saRecord)`: `new Block(this.chain.length, Date.now(),
blockData, this.getLatestBlock().hash)`; `recordData` is the opaque serialized
`blockData` payload. -/
def createSABlock (digest : String → String) (bc : SimpleBlockchain)
    (recordData : String) (now : Nat) : Block :=
  Block.new digest bc.chain.length now recordData (getLatestBlock bc).hash

/-- The body of the `isChainValid()` loop, walking pairs `(chain[i-1], chain[i])`
from `i = 1`: return `false` if the block's stored hash differs from its
recomputed hash, `false` if its `previousHash` differs from the predecessor's
stored hash, else continue. -/
def validFrom (digest : String → String) : Block → List Block → Bool
  | _, [] => true
  | prev, cur :: rest =>
    if cur.hash ≠ calculateHash digest cur then false
    else if cur.previousHash ≠ prev.hash then false
    else validFrom digest cur rest

/-- `isChainValid()`: the walk starting at index 1 (trivially `true` for
chains of length 0 or 1). -/
def isChainValid (digest : String → String) (bc : SimpleBlockchain) : Bool :=
  match bc.chain with
  | [] => true
  | b :: rest => validFrom digest b rest

/-- `getBlockByHash(hash)`: `this.chain.find(block => block.hash === hash) || null`. -/
def getBlockByHash (bc : SimpleBlockchain) (h : String) : Option Block :=
  bc.chain.find? (fun b => b.hash = h)

/-- `getAllBlocks()`: `[...this.chain]` as a value; the reference-level
(shallow-copy) behaviour is modelled separately by `LedgerHeap`. -/
def getAllBlocks (bc : SimpleBlockchain) : List Block :=
  bc.chain

/-- The repository's append path for one lifecycle event
(`SADatabaseService`): `blockchain.createSABlock(record)` followed by
`blockchain.addBlock(block)`. -/
def appendSA (digest : String → String) (bc : SimpleBlockchain)
    (recordData : String) (now fuel : Nat) : Option (SimpleBlockchain × String) :=
  addBlock digest bc (createSABlock digest bc recordData now) fuel

/-- A sequence of `appendSA` calls, each with its payload, wall-clock time and
mining fuel; `none` as soon as one mining search runs out of fuel. -/
def runAppends (digest : String → String) (bc : SimpleBlockchain) :
    List (String × Nat × Nat) → Option SimpleBlockchain
  | [] => some bc
  | (d, t, f) :: rest =>
    match appendSA digest bc d t f with
    | none => none
    | some (bc', _) => runAppends digest bc' rest

/-- The two checks `isChainValid` makes for the pair `(prev, cur)`:
`cur`'s stored hash is its recomputed hash, and `cur.previousHash` is the
predecessor's stored hash. -/
def linkRel (digest : String → String) (prev cur : Block) : Prop :=
  cur.hash = calculateHash digest cur ∧ cur.previousHash = prev.hash

/-- Decode a list of decimal digit characters back to the number they denote;
a left inverse of the digits produced by `Nat.repr`. -/
def decodeDigits (l : List Char) : Nat :=
  l.foldl (fun a c => 10 * a + (c.toNat - 48)) 0

/-- `b'` is `b` with exactly one of the five sealed fields (`index`,
`timestamp`, `data`, `previousHash`, `nonce`) mutated in place, the stored
`hash` left as it was. -/
def TamperedField (b b' : Block) : Prop :=
  b'.hash = b.hash ∧
  ((b'.index ≠ b.index ∧ b'.timestamp = b.timestamp ∧ b'.data = b.data ∧
      b'.previousHash = b.previousHash ∧ b'.nonce = b.nonce) ∨
    (b'.index = b.index ∧ b'.timestamp ≠ b.timestamp ∧ b'.data = b.data ∧
      b'.previousHash = b.previousHash ∧ b'.nonce = b.nonce) ∨
    (b'.index = b.index ∧ b'.timestamp = b.timestamp ∧ b'.data ≠ b.data ∧
      b'.previousHash = b.previousHash ∧ b'.nonce = b.nonce) ∨
    (b'.index = b.index ∧ b'.timestamp = b.timestamp ∧ b'.data = b.data ∧
      b'.previousHash ≠ b.previousHash ∧ b'.nonce = b.nonce) ∨
    (b'.index = b.index ∧ b'.timestamp = b.timestamp ∧ b'.data = b.data ∧
      b'.previousHash = b.previousHash ∧ b'.nonce ≠ b.nonce))

instance (b b' : Block) : Decidable (TamperedField b b') := by
  unfold TamperedField
  infer_instance

/-- Invariant of every state reachable from the constructor by successful
`appendSA` calls: difficulty stays 2, the chain is nonempty, its head is the
genesis block shape, the validation walk succeeds, and every non-genesis block
meets the difficulty-2 proof-of-work target. -/
def ChainInv (digest : String → String) (bc : SimpleBlockchain) : Prop :=
  bc.difficulty = 2 ∧
  bc.chain ≠ [] ∧
  (∀ g, bc.chain.head? = some g → g.index = 0 ∧ g.previousHash = "0") ∧
  isChainValid digest bc = true ∧
  (∀ b ∈ bc.chain.tail, b.hash.take 2 = mineTarget 2)

/-! ### Reference-level model of `getAllBlocks` (JavaScript aliasing)

`getAllBlocks()` returns `[...this.chain]`.  The spread builds a fresh array,
but its elements are the same `Block` object references held by
`this.chain`, and `Block` fields are public and mutable.  To state what a
caller can reach through the returned value, this model makes the references
explicit: `store` is the heap of `Block` objects (a cell's position is its
reference) and `chainRefs` is the ledger's `this.chain`, an array of
references into the heap. -/

structure LedgerHeap where
  store : List Block
  chainRefs : List Nat
deriving DecidableEq

/-- `getAllBlocks()` at the reference level: the fresh array returned by
`[...this.chain]` holds exactly the same block references (a shallow copy). -/
def getAllBlocksRefs (s : LedgerHeap) : List Nat :=
  s.chainRefs

/-- A caller assigning to the fields of the `Block` object behind reference
`r` (all `Block` fields are `public` and mutable in the source). -/
def writeBlock (s : LedgerHeap) (r : Nat) (b : Block) : LedgerHeap :=
  { s with store := s.store.set r b }

/-- The ledger-owned state: the sequence of `Block` objects its chain refers
to. -/
def ledgerChain (s : LedgerHeap) : List Block :=
  s.chainRefs.map (fun r => s.store.getD r phantomBlock)

/-! ### Concrete instances used to witness the parametric theorems -/

/-- A digest that prepends two zero characters: injective, and every output
meets the difficulty-2 target, so mining terminates at once.  Used to
instantiate the parametric theorems on concrete inputs. -/
def digest00 (s : String) : String :=
  "00" ++ s

/-- A freshly constructed ledger under `digest00`, genesis time 0. -/
def cexBC0 : SimpleBlockchain :=
  newBlockchain digest00 0

/-- One append of payload `"R"` at time 1 on the fresh ledger (fuel 0
suffices: under `digest00` every hash already meets the target). -/
def cexAppended : Option (SimpleBlockchain × String) :=
  appendSA digest00 cexBC0 "R" 1 0

/-- The two-block chain that the append produces. -/
def cexBC1 : SimpleBlockchain :=
  (cexAppended.getD (cexBC0, "")).1

/-- The genesis block with its payload mutated in place (stored hash left
untouched). -/
def cexGenesisTampered : Block :=
  { createGenesisBlock digest00 0 with data := "Tampered" }

/-- The sealed block at position 1 of `cexBC1`. -/
def cexBlock1 : Block :=
  cexBC1.chain.getD 1 phantomBlock

/-- That block with its nonce mutated in place (stored hash left untouched). -/
def cexBlock1Tampered : Block :=
  { cexBlock1 with nonce := cexBlock1.nonce + 1 }

/-- A concrete heap state: one genesis block object, referenced by the chain. -/
def cexHeap : LedgerHeap :=
  { store := [createGenesisBlock digest00 0], chainRefs := [0] }

/-- A block constructed against a `previousHash` ("garbage") that is not the
tip's hash, handed to `addBlock` directly. -/
def cexForeign : Block :=
  Block.new digest00 5 7 "X" "garbage"

/-- `addBlock` applied to that foreign block on the fresh ledger. -/
def cexForeignAdded : Option (SimpleBlockchain × String) :=
  addBlock digest00 cexBC0 cexForeign 0

/-- The resulting ledger state. -/
def cexBC2 : SimpleBlockchain :=
  (cexForeignAdded.getD (cexBC0, "")).1

/-- The hash `addBlock` returned for the foreign block. -/
def cexHash2 : String :=
  (cexForeignAdded.getD (cexBC0, "")).2

example : (createGenesisBlock digest00 0).hash = "00000Genesis Block0" := by decide

/-! ### Basic lemmas about `calculateHash`, `Block.new` and `mineBlock` -/

/-- The stored `hash` field is not an input of `calculateHash`. -/
theorem calculateHash_hash_irrel (digest : String → String) (b : Block) (x : String) :
    calculateHash digest { b with hash := x } = calculateHash digest b := rfl

/-- A freshly constructed block stores the digest of its own fields. -/
theorem Block.new_consistent (digest : String → String) (i t : Nat) (d p : String) :
    (Block.new digest i t d p).hash = calculateHash digest (Block.new digest i t d p) := rfl

theorem Block.new_nonce (digest : String → String) (i t : Nat) (d p : String) :
    (Block.new digest i t d p).nonce = 0 := rfl

/-- Mining never changes `index`, `timestamp`, `data` or `previousHash`. -/
theorem mineBlock_fields (digest : String → String) (difficulty : Nat) :
    ∀ (fuel : Nat) (b b' : Block), mineBlock digest difficulty fuel b = some b' →
      b'.index = b.index ∧ b'.timestamp = b.timestamp ∧ b'.data = b.data ∧
        b'.previousHash = b.previousHash := by
  intro fuel
  induction fuel with
  | zero =>
    intro b b' h
    simp only [mineBlock] at h
    split at h
    · cases h; exact ⟨rfl, rfl, rfl, rfl⟩
    · cases h
  | succ fuel ih =>
    intro b b' h
    simp only [mineBlock] at h
    split at h
    · cases h; exact ⟨rfl, rfl, rfl, rfl⟩
    · have hx := ih _ _ h
      exact hx

/-- The loop exits only when the first `difficulty` characters of the hash
equal the all-zero target. -/
theorem mineBlock_pow_target (digest : String → String) (difficulty : Nat) :
    ∀ (fuel : Nat) (b b' : Block), mineBlock digest difficulty fuel b = some b' →
      b'.hash.take difficulty = mineTarget difficulty := by
  intro fuel
  induction fuel with
  | zero =>
    intro b b' h
    simp only [mineBlock] at h
    split at h
    · cases h; assumption
    · cases h
  | succ fuel ih =>
    intro b b' h
    simp only [mineBlock] at h
    split at h
    · cases h; assumption
    · exact ih _ _ h

/-- Mining a block whose stored hash is the digest of its own fields returns a
block with the same property. -/
theorem mineBlock_consistent (digest : String → String) (difficulty : Nat) :
    ∀ (fuel : Nat) (b b' : Block), b.hash = calculateHash digest b →
      mineBlock digest difficulty fuel b = some b' →
      b'.hash = calculateHash digest b' := by
  intro fuel
  induction fuel with
  | zero =>
    intro b b' hc h
    simp only [mineBlock] at h
    split at h
    · cases h; assumption
    · cases h
  | succ fuel ih =>
    intro b b' hc h
    simp only [mineBlock] at h
    split at h
    · cases h; assumption
    · exact ih _ _ rfl h

/-- At difficulty 0 the target is empty, so the loop exits at once with the
block unchanged (its nonce in particular untouched), whatever the fuel. -/
theorem mineBlock_zero (digest : String → String) (fuel : Nat) (b : Block) :
    mineBlock digest 0 fuel b = some b := by
  have hguard : b.hash.take 0 = mineTarget 0 := by
    rw [String.take_eq]; rfl
  cases fuel with
  | zero => simp only [mineBlock]; rw [if_pos hguard]
  | succ f => simp only [mineBlock]; rw [if_pos hguard]

/-! ### Characterizing the `isChainValid` walk -/

theorem validFrom_iff (digest : String → String) :
    ∀ (l : List Block) (prev : Block),
      validFrom digest prev l = true ↔ List.Chain (linkRel digest) prev l := by
  intro l
  induction l with
  | nil =>
    intro prev
    simp [validFrom]
  | cons cur rest ih =>
    intro prev
    rw [validFrom, List.chain_cons]
    split
    · next h1 => simp [linkRel, h1]
    · next h1 =>
      split
      · next h2 => simp [linkRel, h2]
      · next h2 =>
        rw [ih]
        simp [linkRel, not_not.mp h1, not_not.mp h2]

theorem isChainValid_iff_chain (digest : String → String) (bc : SimpleBlockchain) :
    isChainValid digest bc = true ↔ List.Chain' (linkRel digest) bc.chain := by
  rcases h : bc.chain with _ | ⟨b, rest⟩
  · simp [isChainValid, h, List.Chain']
  · simp only [isChainValid, h]
    exact validFrom_iff digest rest b

/-- Index form of the validity characterization. -/
theorem isChainValid_iff_get (digest : String → String) (bc : SimpleBlockchain) :
    isChainValid digest bc = true ↔
      ∀ (i : Nat) (h : i + 1 < bc.chain.length),
        (bc.chain.get ⟨i + 1, h⟩).hash =
            calculateHash digest (bc.chain.get ⟨i + 1, h⟩) ∧
          (bc.chain.get ⟨i + 1, h⟩).previousHash =
            (bc.chain.get ⟨i, Nat.lt_of_succ_lt h⟩).hash := by
  rw [isChainValid_iff_chain, List.chain'_iff_get]
  constructor
  · intro hc i h
    exact hc i (by omega)
  · intro hc i h
    exact hc i (by omega)

example :
    isChainValid digest00
      ((runAppends digest00 (newBlockchain digest00 0)
        [("R", 1, 0)]).getD (newBlockchain digest00 0)) = true := by decide

/-! ### Injectivity of the decimal coercion used in `hashInput` -/

theorem toDigitsCore_acc (b : Nat) :
    ∀ (fuel n : Nat) (ds : List Char),
      Nat.toDigitsCore b fuel n ds = Nat.toDigitsCore b fuel n [] ++ ds := by
  intro fuel
  induction fuel with
  | zero => intro n ds; simp [Nat.toDigitsCore]
  | succ fuel ih =>
    intro n ds
    simp only [Nat.toDigitsCore]
    by_cases hn : n / b = 0
    · simp [hn]
    · rw [if_neg hn, if_neg hn, ih (n / b) (Nat.digitChar (n % b) :: ds),
        ih (n / b) [Nat.digitChar (n % b)]]
      simp

theorem toDigitsCore_fuel (b : Nat) (hb : 2 ≤ b) :
    ∀ (f1 f2 n : Nat) (ds : List Char), n < f1 → n < f2 →
      Nat.toDigitsCore b f1 n ds = Nat.toDigitsCore b f2 n ds := by
  intro f1
  induction f1 with
  | zero => intro f2 n ds h1 h2; omega
  | succ f1 ih =>
    intro f2 n ds h1 h2
    cases f2 with
    | zero => omega
    | succ f2 =>
      simp only [Nat.toDigitsCore]
      by_cases hn : n / b = 0
      · simp [hn]
      · rw [if_neg hn, if_neg hn]
        have hn0 : 0 < n := by
          rcases Nat.eq_zero_or_pos n with h0 | h0
          · exact absurd (by simp [h0]) hn
          · exact h0
        have hdiv : n / b < n := Nat.div_lt_self hn0 (by omega)
        exact ih f2 (n / b) _ (by omega) (by omega)

theorem digitChar_val (n : Nat) (h : n < 10) :
    (Nat.digitChar n).toNat - 48 = n := by
  interval_cases n <;> decide

theorem decodeDigits_toDigits : ∀ n : Nat, decodeDigits (Nat.toDigits 10 n) = n := by
  intro n
  induction n using Nat.strong_induction_on with
  | _ n ih =>
    rw [Nat.toDigits]
    simp only [Nat.toDigitsCore]
    by_cases hn : n / 10 = 0
    · rw [if_pos hn]
      have hlt : n < 10 := by omega
      have hmod : n % 10 = n := Nat.mod_eq_of_lt hlt
      simp [decodeDigits, hmod, digitChar_val n hlt]
    · rw [if_neg hn]
      have hn0 : 0 < n := by omega
      have hdiv : n / 10 < n := Nat.div_lt_self hn0 (by omega)
      rw [toDigitsCore_acc,
        toDigitsCore_fuel 10 (by omega) n (n / 10 + 1) (n / 10) [] (by omega) (by omega)]
      have hrec : Nat.toDigitsCore 10 (n / 10 + 1) (n / 10) [] = Nat.toDigits 10 (n / 10) := by
        rw [Nat.toDigits]
      rw [hrec]
      have hih := ih (n / 10) hdiv
      simp only [decodeDigits] at hih ⊢
      rw [List.foldl_append, hih]
      simp only [List.foldl_cons, List.foldl_nil]
      rw [digitChar_val (n % 10) (Nat.mod_lt n (by omega))]
      omega

theorem natRepr_injective : Function.Injective Nat.repr := by
  intro m n h
  have hm : Nat.toDigits 10 m = Nat.toDigits 10 n := by
    have hd := congrArg String.data h
    simpa [Nat.repr, List.asString] using hd
  have hdec := congrArg decodeDigits hm
  rwa [decodeDigits_toDigits, decodeDigits_toDigits] at hdec

theorem toStringNat_injective : Function.Injective (toString : Nat → String) :=
  natRepr_injective

/-! ### Tampering with a single field changes the digest input -/

theorem string_append_cancel_left (a b c : String) (h : a ++ b = a ++ c) : b = c := by
  apply String.ext
  have hd := congrArg String.data h
  rw [String.data_append, String.data_append] at hd
  exact List.append_cancel_left hd

theorem string_append_cancel_right (a b c : String) (h : a ++ c = b ++ c) : a = b := by
  apply String.ext
  have hd := congrArg String.data h
  rw [String.data_append, String.data_append] at hd
  exact List.append_cancel_right hd

theorem hashInput_ne_of_tamper (b b' : Block) (hT : TamperedField b b') :
    hashInput b' ≠ hashInput b := by
  intro h
  rw [hashInput, hashInput] at h
  rcases hT.2 with ⟨h1, h2, h3, h4, h5⟩ | ⟨h1, h2, h3, h4, h5⟩ |
    ⟨h1, h2, h3, h4, h5⟩ | ⟨h1, h2, h3, h4, h5⟩ | ⟨h1, h2, h3, h4, h5⟩
  · rw [h2, h3, h4, h5] at h
    have := string_append_cancel_right _ _ _
      (string_append_cancel_right _ _ _ (string_append_cancel_right _ _ _
        (string_append_cancel_right _ _ _ h)))
    exact h1 (toStringNat_injective this)
  · rw [h1, h3, h4, h5] at h
    have := string_append_cancel_right _ _ _ (string_append_cancel_right _ _ _ h)
    have := string_append_cancel_left _ _ _ this
    exact h2 (toStringNat_injective this)
  · rw [h1, h2, h4, h5] at h
    have := string_append_cancel_right _ _ _ h
    exact h3 (string_append_cancel_left _ _ _ this)
  · rw [h1, h2, h3, h5] at h
    have := string_append_cancel_right _ _ _
      (string_append_cancel_right _ _ _ (string_append_cancel_right _ _ _ h))
    exact h4 (string_append_cancel_left _ _ _ this)
  · rw [h1, h2, h3, h4] at h
    have := string_append_cancel_left _ _ _ h
    exact h5 (toStringNat_injective this)

/-- C2 (amended): for every chain that passes validation and every sealed
block at a position `i + 1 ≥ 1` in it — the genesis block at position 0 is
excluded, since the walk never recomputes its hash (see the counterexample) —
mutating any one of `index`, `timestamp`, `data`, `previousHash` or `nonce`
of that block in place without recomputing its stored hash makes the next
`validate()` call return `false`, provided the digest is collision-free. -/
theorem validate_false_of_tamper (digest : String → String)
    (hinj : Function.Injective digest) (bc : SimpleBlockchain)
    (hval : isChainValid digest bc = true) (i : Nat)
    (h : i + 1 < bc.chain.length) (b' : Block)
    (hT : TamperedField (bc.chain.get ⟨i + 1, h⟩) b') :
    isChainValid digest { bc with chain := bc.chain.set (i + 1) b' } = false := by
  have horig : (bc.chain.get ⟨i + 1, h⟩).hash =
      calculateHash digest (bc.chain.get ⟨i + 1, h⟩) :=
    ((isChainValid_iff_get digest bc).mp hval i h).1
  have hb'hash : b'.hash ≠ calculateHash digest b' := by
    rw [hT.1, horig]
    intro hcc
    exact hashInput_ne_of_tamper _ _ hT (hinj hcc.symm)
  have hnot : ¬ (isChainValid digest { bc with chain := bc.chain.set (i + 1) b' } = true) := by
    rw [isChainValid_iff_get]
    intro hall
    have hlen : i + 1 < ((bc.chain.set (i + 1) b').length) := by
      simpa using h
    have hget : ((bc.chain.set (i + 1) b').get ⟨i + 1, hlen⟩) = b' := by
      simp [List.getElem_set_self]
    have := (hall i hlen).1
    rw [hget] at this
    exact hb'hash this
  exact Bool.eq_false_iff.mpr hnot

/-! ### The reachable-state invariant of the ledger -/

theorem chainInv_new (digest : String → String) (now : Nat) :
    ChainInv digest (newBlockchain digest now) := by
  refine ⟨rfl, by simp [newBlockchain], ?_, rfl, ?_⟩
  · intro g hg
    simp only [newBlockchain, List.head?_cons, Option.some.injEq] at hg
    rw [← hg]
    exact ⟨rfl, rfl⟩
  · intro b hb
    simp [newBlockchain] at hb

/-- One successful `addBlock` call on a block whose stored hash is consistent
and whose `previousHash` is already the tip's hash preserves the invariant. -/
theorem addBlock_inv (digest : String → String) (bc : SimpleBlockchain)
    (nb : Block) (fuel : Nat) (bc' : SimpleBlockchain) (h : String)
    (hinv : ChainInv digest bc)
    (hc : nb.hash = calculateHash digest nb)
    (hp : nb.previousHash = (getLatestBlock bc).hash)
    (hadd : addBlock digest bc nb fuel = some (bc', h)) :
    ChainInv digest bc' := by
  obtain ⟨hd, hne, hhead, hvalid, hpow⟩ := hinv
  have hb1 : ({ nb with previousHash := (getLatestBlock bc).hash } : Block) = nb := by
    rw [← hp]
  simp only [addBlock] at hadd
  rw [hb1] at hadd
  rcases hmm : mineBlock digest bc.difficulty fuel nb with _ | b2
  · rw [hmm] at hadd; cases hadd
  · rw [hmm] at hadd
    simp only [Option.some.injEq, Prod.mk.injEq] at hadd
    obtain ⟨rfl, rfl⟩ := hadd
    have hfields := mineBlock_fields digest bc.difficulty fuel nb b2 hmm
    have hcons : b2.hash = calculateHash digest b2 :=
      mineBlock_consistent digest bc.difficulty fuel nb b2 hc hmm
    have hpow2 : b2.hash.take 2 = mineTarget 2 := by
      have := mineBlock_pow_target digest bc.difficulty fuel nb b2 hmm
      rwa [hd] at this
    have hlink : b2.previousHash = (getLatestBlock bc).hash := by
      rw [hfields.2.2.2, hp]
    obtain ⟨g0, rest, hchain⟩ := List.exists_cons_of_ne_nil hne
    refine ⟨hd, by simp, ?_, ?_, ?_⟩
    · intro g hg
      apply hhead
      rw [hchain]
      rw [hchain] at hg
      simpa using hg
    · rw [isChainValid_iff_chain] at hvalid ⊢
      refine List.chain'_append.mpr ⟨hvalid, List.chain'_singleton b2, ?_⟩
      intro x hx y hy
      simp only [List.head?_cons, Option.mem_def, Option.some.injEq] at hy
      subst hy
      refine ⟨hcons, ?_⟩
      rw [hlink]
      have hlast : bc.chain.getLast? = some (bc.chain.getLast hne) :=
        List.getLast?_eq_getLast bc.chain hne
      rw [Option.mem_def, hlast, Option.some.injEq] at hx
      subst hx
      simp [getLatestBlock, List.getLastD_eq_getLast?, hlast]
    · intro b hb
      rw [hchain] at hb
      simp only [List.cons_append, List.tail_cons] at hb
      rcases List.mem_append.mp hb with hb | hb
      · apply hpow
        rw [hchain]
        simpa using hb
      · simp only [List.mem_singleton] at hb
        subst hb
        exact hpow2

theorem appendSA_inv (digest : String → String) (bc : SimpleBlockchain)
    (recordData : String) (now fuel : Nat) (bc' : SimpleBlockchain) (h : String)
    (hinv : ChainInv digest bc)
    (happ : appendSA digest bc recordData now fuel = some (bc', h)) :
    ChainInv digest bc' :=
  addBlock_inv digest bc (createSABlock digest bc recordData now) fuel bc' h
    hinv rfl rfl happ

theorem runAppends_inv (digest : String → String) :
    ∀ (inputs : List (String × Nat × Nat)) (bc bc' : SimpleBlockchain),
      ChainInv digest bc → runAppends digest bc inputs = some bc' →
      ChainInv digest bc' := by
  intro inputs
  induction inputs with
  | nil =>
    intro bc bc' hinv h
    simp only [runAppends, Option.some.injEq] at h
    rw [← h]
    exact hinv
  | cons p rest ih =>
    intro bc bc' hinv h
    obtain ⟨d, t, f⟩ := p
    simp only [runAppends] at h
    rcases happ : appendSA digest bc d t f with _ | ⟨bc1, hh⟩
    · rw [happ] at h; cases h
    · rw [happ] at h
      exact ih bc1 bc' (appendSA_inv digest bc d t f bc1 hh hinv happ) h

/-! ### Remaining helpers -/

theorem digest00_injective : Function.Injective digest00 := by
  intro s t h
  simp only [digest00] at h
  exact string_append_cancel_left "00" s t h

theorem find?_first {α : Type} (p : α → Bool) :
    ∀ (l1 : List α) (b : α) (l2 : List α), p b = true → (∀ x ∈ l1, p x = false) →
      (l1 ++ b :: l2).find? p = some b := by
  intro l1
  induction l1 with
  | nil =>
    intro b l2 hb _
    simpa using List.find?_cons_of_pos l2 hb
  | cons x xs ih =>
    intro b l2 hb hall
    rw [List.cons_append, List.find?_cons_of_neg]
    · exact ih b l2 hb (fun y hy => hall y (List.mem_cons_of_mem x hy))
    · simp [hall x (List.mem_cons_self x xs)]

/-! ### The claims -/

/-- C1: for any sequence of append calls performed on a freshly constructed
ledger (genesis block followed by zero or more `addBlock` appends through the
repository's append path, with no external mutation), `validate()` returns
true immediately afterward — conditional, as everywhere in this file, on
every mining search having terminated (`runAppends` returning `some`). -/
theorem appends_then_validate_true (digest : String → String) (genesisTime : Nat)
    (inputs : List (String × Nat × Nat)) (bc' : SimpleBlockchain)
    (hrun : runAppends digest (newBlockchain digest genesisTime) inputs = some bc') :
    isChainValid digest bc' = true :=
  (runAppends_inv digest inputs (newBlockchain digest genesisTime) bc'
    (chainInv_new digest genesisTime) hrun).2.2.2.1

theorem appends_then_validate_true_witness :
    isChainValid digest00 cexBC1 = true :=
  appends_then_validate_true digest00 0 [("R", 1, 0)] cexBC1 (by decide)

/-- C3: in every chain produced by genesis creation followed by appends, each
block from index 1 on stores the hash of its predecessor in `previousHash`. -/
theorem appends_linkage (digest : String → String) (genesisTime : Nat)
    (inputs : List (String × Nat × Nat)) (bc' : SimpleBlockchain)
    (hrun : runAppends digest (newBlockchain digest genesisTime) inputs = some bc') :
    ∀ (i : Nat) (h : i + 1 < bc'.chain.length),
      (bc'.chain.get ⟨i + 1, h⟩).previousHash =
        (bc'.chain.get ⟨i, Nat.lt_of_succ_lt h⟩).hash := by
  intro i h
  have hv := (runAppends_inv digest inputs (newBlockchain digest genesisTime) bc'
    (chainInv_new digest genesisTime) hrun).2.2.2.1
  exact ((isChainValid_iff_get digest bc').mp hv i h).2

theorem appends_linkage_witness :
    (cexBC1.chain.get ⟨1, by decide⟩).previousHash =
      (cexBC1.chain.get ⟨0, by decide⟩).hash :=
  appends_linkage digest00 0 [("R", 1, 0)] cexBC1 (by decide) 0 (by decide)

/-- C7: the first block of every ledger (freshly constructed or grown by
appends) has index 0 and the sentinel previousHash `"0"`. -/
theorem genesis_shape (digest : String → String) (genesisTime : Nat)
    (inputs : List (String × Nat × Nat)) (bc' : SimpleBlockchain)
    (hrun : runAppends digest (newBlockchain digest genesisTime) inputs = some bc') :
    bc'.chain ≠ [] ∧
      ∀ g, bc'.chain.head? = some g → g.index = 0 ∧ g.previousHash = "0" := by
  have hinv := runAppends_inv digest inputs (newBlockchain digest genesisTime) bc'
    (chainInv_new digest genesisTime) hrun
  exact ⟨hinv.2.1, hinv.2.2.1⟩

theorem genesis_shape_witness :
    (createGenesisBlock digest00 0).index = 0 ∧
      (createGenesisBlock digest00 0).previousHash = "0" :=
  (genesis_shape digest00 0 [("R", 1, 0)] cexBC1 (by decide)).2
    (createGenesisBlock digest00 0) (by decide)

/-- C9: in every chain produced by genesis creation followed by appends, each
non-genesis block's hash has at least `difficulty` leading zero characters,
and the configured difficulty stays fixed at 2; the genesis block is exempt
(it lies outside `chain.tail`). -/
theorem appends_pow_invariant (digest : String → String) (genesisTime : Nat)
    (inputs : List (String × Nat × Nat)) (bc' : SimpleBlockchain)
    (hrun : runAppends digest (newBlockchain digest genesisTime) inputs = some bc') :
    bc'.difficulty = 2 ∧
      ∀ b ∈ bc'.chain.tail, b.hash.take bc'.difficulty = "00" := by
  have hinv := runAppends_inv digest inputs (newBlockchain digest genesisTime) bc'
    (chainInv_new digest genesisTime) hrun
  refine ⟨hinv.1, ?_⟩
  intro b hb
  rw [hinv.1]
  have ht := hinv.2.2.2.2 b hb
  rw [ht]
  decide

theorem appends_pow_invariant_witness :
    cexBlock1.hash.take cexBC1.difficulty = "00" :=
  (appends_pow_invariant digest00 0 [("R", 1, 0)] cexBC1 (by decide)).2
    cexBlock1 (by decide)

/-- C2, counterexample to the claim as stated: on the produced two-block
chain, mutating the sealed genesis block's payload in place (stored hash left
untouched) does NOT make `validate()` return false — the walk starts at index
1 and only consults the genesis block's stored hash, never its fields. -/
theorem genesis_tamper_passes_validate :
    cexAppended.isSome = true ∧
    cexBC1.chain.getD 0 phantomBlock = createGenesisBlock digest00 0 ∧
    isChainValid digest00 cexBC1 = true ∧
    cexGenesisTampered.hash = (createGenesisBlock digest00 0).hash ∧
    cexGenesisTampered.data ≠ (createGenesisBlock digest00 0).data ∧
    isChainValid digest00
      { cexBC1 with chain := cexBC1.chain.set 0 cexGenesisTampered } = true := by
  decide

theorem validate_false_of_tamper_witness :
    isChainValid digest00 cexBC1 = true ∧
    isChainValid digest00
      { cexBC1 with chain := cexBC1.chain.set 1 cexBlock1Tampered } = false :=
  ⟨by decide,
   validate_false_of_tamper digest00 digest00_injective cexBC1 (by decide) 0
     (by decide) cexBlock1Tampered (by decide)⟩

/-- C4: sealing a block under difficulty `d` only ever returns a block whose
hash's first `d` hex characters are all `'0'` (whenever the unbounded search
terminates, i.e. `mineBlock` returns `some`); for `d = 0` it returns
immediately — whatever the fuel, even 0 — leaving the block, and in
particular its nonce, untouched, and a freshly constructed draft has
`nonce = 0`. -/
theorem mineBlock_pow_spec (digest : String → String) (d fuel : Nat) (b : Block) :
    (∀ b', mineBlock digest d fuel b = some b' →
      b'.hash.take d = String.mk (List.replicate d '0')) ∧
    mineBlock digest 0 fuel b = some b ∧
    (∀ (i t : Nat) (dat p : String), (Block.new digest i t dat p).nonce = 0) :=
  ⟨fun b' h => mineBlock_pow_target digest d fuel b b' h,
   mineBlock_zero digest fuel b,
   fun _ _ _ _ => rfl⟩

theorem mineBlock_pow_spec_witness :
    (Block.new digest00 1 1 "R" "x").hash.take 2 = String.mk (List.replicate 2 '0') ∧
    mineBlock digest00 0 7 phantomBlock = some phantomBlock :=
  ⟨(mineBlock_pow_spec digest00 2 0 (Block.new digest00 1 1 "R" "x")).1
      (Block.new digest00 1 1 "R" "x") (by decide),
   (mineBlock_pow_spec digest00 0 7 phantomBlock).2.1⟩

/-- C5: `validate()` succeeds exactly when, for every block from index 1 to
the tip, the stored hash equals the hash recomputed from the stored fields
and the block's `previousHash` equals the predecessor's stored hash (so it is
false as soon as some violation exists — operationally, at the first one);
chains of zero or one block always validate. -/
theorem isChainValid_spec (digest : String → String) (bc : SimpleBlockchain) :
    (isChainValid digest bc = true ↔
      ∀ (i : Nat) (h : i + 1 < bc.chain.length),
        (bc.chain.get ⟨i + 1, h⟩).hash =
            calculateHash digest (bc.chain.get ⟨i + 1, h⟩) ∧
          (bc.chain.get ⟨i + 1, h⟩).previousHash =
            (bc.chain.get ⟨i, Nat.lt_of_succ_lt h⟩).hash) ∧
    (bc.chain.length ≤ 1 → isChainValid digest bc = true) := by
  refine ⟨isChainValid_iff_get digest bc, ?_⟩
  intro hlen
  rw [isChainValid_iff_get]
  intro i h
  exact absurd h (by omega)

theorem isChainValid_spec_witness :
    isChainValid digest00 cexBC0 = true :=
  (isChainValid_spec digest00 cexBC0).2 (by decide)

/-- C6 (amended): `getAllBlocks()` returns a fresh array, but it is a shallow
copy: it holds exactly the same `Block` references as the ledger's chain, so
while the ledger's own array is not reachable through the returned value, the
ledger-owned `Block` objects are — a caller's write to a block behind any
reference obtained from the snapshot is visible in the ledger's chain. -/
theorem getAllBlocks_shallow_copy (s : LedgerHeap) :
    getAllBlocksRefs s = s.chainRefs ∧
    ∀ (r : Nat) (b : Block), r ∈ getAllBlocksRefs s → r < s.store.length →
      ledgerChain (writeBlock s r b) =
        s.chainRefs.map (fun q => if q = r then b else s.store.getD q phantomBlock) := by
  refine ⟨rfl, ?_⟩
  intro r b _ hr
  have hpt : ∀ q : Nat, (s.store.set r b).getD q phantomBlock =
      if q = r then b else s.store.getD q phantomBlock := by
    intro q
    by_cases hq : q = r
    · subst hq
      simp [List.getD_eq_getElem?_getD, List.getElem?_set_self hr]
    · simp [hq, List.getD_eq_getElem?_getD,
        List.getElem?_set_ne (fun he => hq he.symm)]
  show s.chainRefs.map (fun q => (s.store.set r b).getD q phantomBlock) = _
  simp only [hpt]

theorem getAllBlocks_shallow_copy_witness :
    ledgerChain (writeBlock cexHeap 0 cexGenesisTampered) =
      cexHeap.chainRefs.map
        (fun q => if q = 0 then cexGenesisTampered
          else cexHeap.store.getD q phantomBlock) :=
  (getAllBlocks_shallow_copy cexHeap).2 0 cexGenesisTampered (by decide) (by decide)

/-- C6, counterexample to the claim as stated: a caller CAN mutate
ledger-owned state through the value `getAllBlocks()` returns — writing to
the block behind the first reference of the snapshot changes the block
sequence the ledger's chain refers to. -/
theorem snapshot_write_mutates_ledger :
    (getAllBlocksRefs cexHeap).getD 0 0 ∈ getAllBlocksRefs cexHeap ∧
    ledgerChain
        (writeBlock cexHeap ((getAllBlocksRefs cexHeap).getD 0 0) cexGenesisTampered) ≠
      ledgerChain cexHeap := by
  decide

/-- C8: `getBlockByHash` is a total function — for every hash string it
returns `none` exactly when no block of the chain stores that hash (so it
never fails on an unknown hash), any block it returns stores the requested
hash and belongs to the chain, and it returns the first match of the linear
scan. -/
theorem getBlockByHash_total_spec (bc : SimpleBlockchain) (h : String) :
    (getBlockByHash bc h = none ↔ ∀ b ∈ bc.chain, b.hash ≠ h) ∧
    (∀ b, getBlockByHash bc h = some b → b.hash = h ∧ b ∈ bc.chain) ∧
    (∀ (l1 l2 : List Block) (b : Block), bc.chain = l1 ++ b :: l2 → b.hash = h →
      (∀ x ∈ l1, x.hash ≠ h) → getBlockByHash bc h = some b) := by
  refine ⟨?_, ?_, ?_⟩
  · rw [getBlockByHash, List.find?_eq_none]
    constructor
    · intro hall b hb
      simpa using hall b hb
    · intro hall b hb
      simpa using hall b hb
  · intro b hb
    rw [getBlockByHash] at hb
    have h1 := List.find?_some hb
    have h2 := List.mem_of_find?_eq_some hb
    exact ⟨by simpa using h1, h2⟩
  · intro l1 l2 b hchain hb hall
    rw [getBlockByHash, hchain]
    apply find?_first
    · simpa using hb
    · intro x hx
      simpa using hall x hx

theorem getBlockByHash_total_spec_witness :
    getBlockByHash cexBC1 "zzz" = none :=
  (getBlockByHash_total_spec cexBC1 "zzz").1.mpr (by decide)

/-- C10: whatever `previousHash` the block handed to `addBlock` was
constructed with, `addBlock` overwrites it with the current tip's stored
hash before mining, appends the mined block (same `index`, `timestamp` and
`data`, `previousHash` now the old tip's hash) and returns exactly that
appended block's post-mining hash. -/
theorem addBlock_overwrites_and_returns (digest : String → String)
    (bc : SimpleBlockchain) (nb : Block) (fuel : Nat)
    (bc' : SimpleBlockchain) (h : String)
    (hadd : addBlock digest bc nb fuel = some (bc', h)) :
    bc'.chain = bc.chain ++ [getLatestBlock bc'] ∧
    (getLatestBlock bc').previousHash = (getLatestBlock bc).hash ∧
    h = (getLatestBlock bc').hash ∧
    (getLatestBlock bc').index = nb.index ∧
    (getLatestBlock bc').timestamp = nb.timestamp ∧
    (getLatestBlock bc').data = nb.data := by
  simp only [addBlock] at hadd
  rcases hmm : mineBlock digest bc.difficulty fuel
      ({ nb with previousHash := (getLatestBlock bc).hash }) with _ | b2
  · rw [hmm] at hadd; cases hadd
  · rw [hmm] at hadd
    simp only [Option.some.injEq, Prod.mk.injEq] at hadd
    obtain ⟨rfl, rfl⟩ := hadd
    have hfields := mineBlock_fields digest bc.difficulty fuel _ b2 hmm
    have hlast : getLatestBlock { bc with chain := bc.chain ++ [b2] } = b2 := by
      simp [getLatestBlock, List.getLastD_concat]
    rw [hlast]
    exact ⟨rfl, hfields.2.2.2, rfl, hfields.1, hfields.2.1, hfields.2.2.1⟩

theorem addBlock_overwrites_and_returns_witness :
    cexForeign.previousHash ≠ (getLatestBlock cexBC0).hash ∧
    cexBC2.chain = cexBC0.chain ++ [getLatestBlock cexBC2] ∧
    (getLatestBlock cexBC2).previousHash = (getLatestBlock cexBC0).hash ∧
    cexHash2 = (getLatestBlock cexBC2).hash := by
  have hx := addBlock_overwrites_and_returns digest00 cexBC0 cexForeign 0
    cexBC2 cexHash2 (by decide)
  exact ⟨by decide, hx.1, hx.2.1, hx.2.2.1⟩

end SecurityAssociations
